import Mathlib

/-!
Verification development for the NW-Australia marine features pipeline
(AU_NESP-MaC-3-17_AIMS_NW-Aus-Features).

Geometry is modelled by rasterisation: a polygon is a finite set of unit
grid cells of the working CRS, each cell having area `1/10000` squared
degrees.  Set intersection, difference and union of cell sets model the
corresponding GEOS overlay operations; two polygons that share a boundary
but no interior ("touches") are modelled as disjoint cell sets containing
grid-adjacent cells.
-/

namespace NWAus

/-- A raster cell of the working CRS grid. -/
abbrev Cell := ℤ × ℤ

/-- A polygonal region, rasterised to a finite set of grid cells. -/
abbrev Poly := Finset Cell

/-- Area of one raster cell, in squared degrees (`0.0001`). -/
def cellArea : ℚ := mkRat 1 10000

/-- Area of a rasterised polygon (`geometry.area`). -/
def area (p : Poly) : ℚ := (p.card : ℚ) * cellArea

/-- Two cells share an edge of the grid. -/
def adjacentCell (a b : Cell) : Bool :=
  (a.1 - b.1).natAbs + (a.2 - b.2).natAbs = 1

/-- Some cell of `p` is grid-adjacent to some cell of `q` (shared boundary). -/
def polyAdjacent (p q : Poly) : Prop :=
  ∃ a ∈ p, ∃ b ∈ q, adjacentCell a b = true

instance polyAdjacentDec (p q : Poly) : Decidable (polyAdjacent p q) := by
  unfold polyAdjacent; infer_instance

/-- `a.intersects(b)`: the regions meet, either in a common cell or along a
shared boundary. -/
def intersects (p q : Poly) : Prop :=
  (p ∩ q).Nonempty ∨ polyAdjacent p q

instance intersectsDec (p q : Poly) : Decidable (intersects p q) := by
  unfold intersects; infer_instance

/-- `a.touches(b)`: only boundaries meet, the interiors are disjoint. -/
def touches (p q : Poly) : Prop :=
  p ∩ q = ∅ ∧ polyAdjacent p q

instance touchesDec (p q : Poly) : Decidable (touches p q) := by
  unfold touches; infer_instance

/-- `unary_union` / union of a list of geometries. -/
def unionAll (l : List Poly) : Poly := l.foldr (· ∪ ·) ∅

/-! ## Stage 02 — `02-clean-overlaps.py`

A reef feature: its `RB_Type_L3` classification, an opaque row of all the
remaining attribute columns (represented by a natural-number tag), and its
geometry. -/
structure ReefFeature where
  rbTypeL3 : String
  attrs : ℕ
  geom : Poly
deriving DecidableEq

/-- Threshold used by `cut_out_overlaps` to ignore tiny overlaps
(`intersection.area > 0.0005`). -/
def cutThreshold : ℚ := mkRat 5 10000

/-- Threshold used by `identify_overlaps` to ignore tiny overlaps
(`intersection.area > 0.0001`). -/
def verifyThreshold : ℚ := mkRat 1 10000

/-- One iteration of the inner loop of `cut_out_overlaps`: if the current
target geometry intersects the overlay and the intersection area exceeds the
threshold, the overlay is cut out of the target (`difference`). -/
def cutStep (θ : ℚ) (g : Poly) (ov : Poly) : Poly :=
  if intersects g ov ∧ area (g ∩ ov) > θ then g \ ov else g

/-- The cumulative cutting of all overlay geometries from a target geometry,
applied one overlay at a time in list order. -/
def cutFoldT (θ : ℚ) (overlays : List Poly) (g : Poly) : Poly :=
  overlays.foldl (cutStep θ) g

/-- Processing of a single target feature by `cut_out_overlaps`: cut all
overlays cumulatively; if the remaining geometry is empty the feature is
dropped (`continue`), otherwise all attributes are kept and only the
geometry is replaced. -/
def resolveFeature (θ : ℚ) (overlays : List Poly) (t : ReefFeature) :
    Option ReefFeature :=
  if cutFoldT θ overlays t.geom = ∅ then none
  else some { t with geom := cutFoldT θ overlays t.geom }

/-- `cut_out_overlaps(target_gdf, overlay_gdf)` (geometry result; the overlap
counter is diagnostic only).  Empty inputs are returned unchanged. -/
def cutOutOverlaps (θ : ℚ) (targets overlays : List ReefFeature) :
    List ReefFeature :=
  if targets = [] ∨ overlays = [] then targets
  else targets.filterMap (resolveFeature θ (overlays.map (·.geom)))

/-- Executable (cell-count) form of `cutStep` at the cut threshold. -/
def cutStepB (g ov : Poly) : Poly :=
  if intersects g ov ∧ 5 < (g ∩ ov).card then g \ ov else g

/-- Executable form of `cutFoldT` at the cut threshold. -/
def cutFoldB (overlays : List Poly) (g : Poly) : Poly :=
  overlays.foldl cutStepB g

/-- Executable form of `resolveFeature` at the cut threshold. -/
def resolveFeatureB (overlays : List Poly) (t : ReefFeature) :
    Option ReefFeature :=
  if cutFoldB overlays t.geom = ∅ then none
  else some { t with geom := cutFoldB overlays t.geom }

/-- Executable form of `cutOutOverlaps` at the cut threshold. -/
def cutOutOverlapsB (targets overlays : List ReefFeature) : List ReefFeature :=
  if targets = [] ∨ overlays = [] then targets
  else targets.filterMap (resolveFeatureB (overlays.map (·.geom)))

/-! The feature-type partitioning of stage 02 (`main`) and the final
combined output: cleaned platform reefs, cleaned fringing reefs, the
untouched high intertidal reefs, and everything else unchanged. -/
def highIntertidal (gdf : List ReefFeature) : List ReefFeature :=
  gdf.filter (fun f => decide (f.rbTypeL3 = "High Intertidal Coral Reef"))

def platformCoral (gdf : List ReefFeature) : List ReefFeature :=
  gdf.filter (fun f => decide (f.rbTypeL3 = "Platform Coral Reef"))

def fringingCoral (gdf : List ReefFeature) : List ReefFeature :=
  gdf.filter (fun f => decide (f.rbTypeL3 = "Fringing Coral Reef"))

def otherFeatures (gdf : List ReefFeature) : List ReefFeature :=
  gdf.filter (fun f => decide (¬ (f.rbTypeL3 = "High Intertidal Coral Reef"
    ∨ f.rbTypeL3 = "Platform Coral Reef" ∨ f.rbTypeL3 = "Fringing Coral Reef")))

/-- `result_gdf` of stage 02: concatenation of the modified platform reefs,
modified fringing reefs, untouched high intertidal reefs and all remaining
features (dropping empty parts does not change the concatenation). -/
def stage02Result (gdf : List ReefFeature) : List ReefFeature :=
  cutOutOverlaps cutThreshold (platformCoral gdf) (highIntertidal gdf)
    ++ cutOutOverlaps cutThreshold (fringingCoral gdf) (highIntertidal gdf)
    ++ highIntertidal gdf ++ otherFeatures gdf

/-- A residual-overlap report row produced by `identify_overlaps`. -/
structure OverlapRec where
  featureI : ℕ
  featureJ : ℕ
  typeI : String
  typeJ : String
  inter : Poly
deriving DecidableEq

/-- `identify_overlaps(gdf)` of stage 02: a full pairwise scan of the
combined output.  `cand i` models the spatial-index bounding-box query for
feature `i` (the candidate list, a superset of the true intersectors); any
pair is only reported after the precise geometric test.  Pairs with
`i ≥ j`, empty geometries, `touches`-only adjacency, or intersection area
at most `0.0001` are skipped. -/
def identifyOverlaps (cand : ℕ → List ℕ) (feats : List ReefFeature) :
    List OverlapRec :=
  feats.enum.flatMap (fun fi =>
    if fi.2.geom = ∅ then []
    else feats.enum.flatMap (fun fj =>
      if fj.1 ∈ cand fi.1 ∧ fi.1 < fj.1 ∧ fj.2.geom ≠ ∅
          ∧ intersects fi.2.geom fj.2.geom ∧ ¬ touches fi.2.geom fj.2.geom
          ∧ area (fi.2.geom ∩ fj.2.geom) > verifyThreshold
      then [⟨fi.1, fj.1, fi.2.rbTypeL3, fj.2.rbTypeL3, fi.2.geom ∩ fj.2.geom⟩]
      else []))

/-- Executable form of `identifyOverlaps`. -/
def identifyOverlapsB (cand : ℕ → List ℕ) (feats : List ReefFeature) :
    List OverlapRec :=
  feats.enum.flatMap (fun fi =>
    if fi.2.geom = ∅ then []
    else feats.enum.flatMap (fun fj =>
      if fj.1 ∈ cand fi.1 ∧ fi.1 < fj.1 ∧ fj.2.geom ≠ ∅
          ∧ intersects fi.2.geom fj.2.geom ∧ ¬ touches fi.2.geom fj.2.geom
          ∧ 1 < (fi.2.geom ∩ fj.2.geom).card
      then [⟨fi.1, fj.1, fi.2.rbTypeL3, fj.2.rbTypeL3, fi.2.geom ∩ fj.2.geom⟩]
      else []))

/-! Concrete fixtures used by witnesses and counterexamples: horizontal rows
of raster cells. -/
def rowCells (n : ℕ) : Poly :=
  (Finset.range n).image (fun i : ℕ => ((i : ℤ), (0 : ℤ)))

def exTarget : ReefFeature := ⟨"Platform Coral Reef", 0, rowCells 10⟩

def exOverlayFull : ReefFeature := ⟨"High Intertidal Coral Reef", 1, rowCells 10⟩

def exOverlayPart : ReefFeature := ⟨"High Intertidal Coral Reef", 2, rowCells 7⟩

def exOverlaySix : ReefFeature := ⟨"High Intertidal Coral Reef", 3, rowCells 6⟩

def exResolved : ReefFeature := ⟨"Platform Coral Reef", 0, rowCells 10 \ rowCells 6⟩

def exCand : ℕ → List ℕ := fun _ => [0, 1]

def exRec : OverlapRec :=
  ⟨0, 1, "Platform Coral Reef", "High Intertidal Coral Reef",
    rowCells 10 ∩ rowCells 7⟩

/-! ## Stage 05 — `05-clip-rocks-from-reefs.py` -/
structure Feat05 where
  featL3 : String
  attrs : ℕ
  geom : Poly
deriving DecidableEq

def rockyReefs (gdf : List Feat05) : List Feat05 :=
  gdf.filter (fun f => decide (f.featL3 = "Rocky Reef"))

def nonRockyReefs (gdf : List Feat05) : List Feat05 :=
  gdf.filter (fun f => decide (¬ f.featL3 = "Rocky Reef"))

/-- One step of the per-rocky-reef clipping loop of stage 05: if the current
geometry still intersects the rocky reef, the overlap is removed and an
empty result ends the loop (`process_geometry` returns `None`). -/
def clipStep (cur : Option Poly) (r : Poly) : Option Poly :=
  match cur with
  | none => none
  | some g =>
      if intersects g r then
        (if g \ r = ∅ then none else some (g \ r))
      else some g

/-- Processing of one non-rocky feature in stage 05: features intersecting
no rocky reef are kept as-is; otherwise every intersecting rocky reef is cut
out in turn and the feature is dropped if nothing remains. -/
def clipNonRocky (rocks : List Poly) (f : Feat05) : Option Feat05 :=
  let inters := rocks.filter (fun r => decide (intersects r f.geom))
  if inters = [] then some f
  else
    match inters.foldl clipStep (some f.geom) with
    | none => none
    | some g => if g = ∅ then none else some { f with geom := g }

/-- `result_gdf` of stage 05: the rocky reefs unchanged, followed by the
clipped non-rocky features. -/
def stage05Result (gdf : List Feat05) : List Feat05 :=
  rockyReefs gdf
    ++ (nonRockyReefs gdf).filterMap (clipNonRocky ((rockyReefs gdf).map (·.geom)))

def exRock : Feat05 := ⟨"Rocky Reef", 0, rowCells 4⟩

/-! ## Stage 08 — `08-v0-3-clip-land.py` -/
structure ClipFeat where
  attrs : ℕ
  geom : Option Poly
deriving DecidableEq

/-- `clip_geometry(geom)` of stage 08: a missing geometry stays missing, and
otherwise the coastline union is subtracted, with an empty result returned
as `None`. -/
def clipGeometry (coastUnion : Poly) (g : Option Poly) : Option Poly :=
  match g with
  | none => none
  | some geom =>
      if geom \ coastUnion = ∅ then none else some (geom \ coastUnion)

/-- The post-clip row filter `~geometry.isna() & ~geometry.is_empty`. -/
def keepClipped (f : ClipFeat) : Bool :=
  match f.geom with
  | none => false
  | some g => decide (¬ g = ∅)

/-- `apply_coastline_clipping`: replace each geometry by its difference with
the coastline union, then drop rows whose geometry is missing or empty. -/
def applyCoastlineClipping (feats : List ClipFeat) (coast : List Poly) :
    List ClipFeat :=
  (feats.map (fun f => { f with geom := clipGeometry (unionAll coast) f.geom })).filter
    keepClipped

/-- A feature is removed by clipping iff its geometry is missing or entirely
contained in the coastline union. -/
def removedByClip (coastUnion : Poly) (f : ClipFeat) : Bool :=
  match f.geom with
  | none => true
  | some g => decide (g ⊆ coastUnion)

/-! ## Output-existence behaviour of the stages (C7)

The observable behaviour of a stage `main` with respect to its input and
output files, abstracted to the sequence of file events. -/
inductive StageEvent where
  | aborted
  | loadedInput
  | wroteOutput
deriving DecidableEq

/-- Stage 03 `main`: the output-existence guard runs first and aborts before
anything is loaded or written; a missing input also aborts; otherwise the
stage loads its input and writes its output. -/
def stage03Trace (inputExists outputExists : Bool) : List StageEvent :=
  if outputExists then [.aborted]
  else if !inputExists then [.aborted]
  else [.loadedInput, .wroteOutput]

/-- Stage 02 `main`: a missing input aborts; otherwise the stage loads its
input and writes its output — the existence of the output file is never
consulted. -/
def stage02Trace (inputExists outputExists : Bool) : List StageEvent :=
  if !inputExists then [.aborted]
  else [.loadedInput, .wroteOutput]

/-! ## Stage 07 — `07-v0-3-clip-merge-shallow-sed.py`

Shapely geometry objects are typed; we model the type structure with an
inductive: a `Polygon` (single part), a `MultiPolygon`, a one-level
`GeometryCollection` (GEOS overlay results are never nested), or a
non-polygonal geometry of which only emptiness is relevant. -/
inductive PItem where
  | poly (p : Poly)
  | multi (ps : List Poly)
  | nonPolygonal (isEmp : Bool)
deriving DecidableEq

inductive PGeom where
  | poly (p : Poly)
  | multi (ps : List Poly)
  | coll (items : List PItem)
  | nonPolygonal (isEmp : Bool)
deriving DecidableEq

/-- `isinstance(g, (Polygon, MultiPolygon))`. -/
def PItem.isPolygonal : PItem → Bool
  | .poly _ => true
  | .multi _ => true
  | .nonPolygonal _ => false

def itemToGeom : PItem → PGeom
  | .poly p => .poly p
  | .multi ps => .multi ps
  | .nonPolygonal e => .nonPolygonal e

/-- The polygon parts of a collection element (used when stage 07 rebuilds a
`MultiPolygon` from the polygonal elements of a collection). -/
def PItem.parts : PItem → List Poly
  | .poly p => [p]
  | .multi ps => ps
  | .nonPolygonal _ => []

def PItem.isEmptyItem : PItem → Bool
  | .poly p => decide (p = ∅)
  | .multi ps => ps.all (fun p => decide (p = ∅))
  | .nonPolygonal e => e

/-- `geometry.is_empty`. -/
def PGeom.isEmptyG : PGeom → Bool
  | .poly p => decide (p = ∅)
  | .multi ps => ps.all (fun p => decide (p = ∅))
  | .coll items => items.all PItem.isEmptyItem
  | .nonPolygonal e => e

/-- `process_geometry(geom)` of stage 07: `None` for a missing or empty
geometry, polygons and multipolygons unchanged, the polygonal elements
extracted from a collection (rebuilt as a `MultiPolygon` when there are
several), and `None` for anything without polygonal content. -/
def processGeometry (g : PGeom) : Option PGeom :=
  if g.isEmptyG then none
  else match g with
  | .poly p => some (.poly p)
  | .multi ps => some (.multi ps)
  | .coll items =>
      match items.filter PItem.isPolygonal with
      | [] => none
      | [x] => some (itemToGeom x)
      | xs => some (.multi (xs.flatMap PItem.parts))
  | .nonPolygonal _ => none

/-- One expansion step of the raster connectivity closure: add every cell of
`p` adjacent to the current set. -/
def grow (p : Poly) (s : Finset Cell) : Finset Cell :=
  s ∪ p.filter (fun c => ∃ b ∈ s, adjacentCell b c = true)

/-- All cells of `p` connected to `c` (fuel `p.card` suffices for the
closure). -/
def reachCells (p : Poly) (c : Cell) : Finset Cell :=
  (grow p)^[p.card] {c}

/-- Lexicographic order on raster cells, used to enumerate a cell set in a
canonical order. -/
def cellLE (a b : Cell) : Prop :=
  a.1 < b.1 ∨ (a.1 = b.1 ∧ a.2 ≤ b.2)

instance cellLEDec : DecidableRel cellLE := fun a b => by
  unfold cellLE; infer_instance

instance cellLETrans : IsTrans Cell cellLE :=
  ⟨fun a b c hab hbc => by
    unfold cellLE at hab hbc ⊢
    omega⟩

instance cellLEAntisymm : IsAntisymm Cell cellLE :=
  ⟨fun a b hab hba => by
    unfold cellLE at hab hba
    have h1 : a.1 = b.1 := by omega
    have h2 : a.2 = b.2 := by omega
    exact Prod.ext h1 h2⟩

instance cellLETotal : IsTotal Cell cellLE :=
  ⟨fun a b => by
    unfold cellLE
    omega⟩

/-- The cells of a set enumerated in lexicographic order (computable and
kernel-reducible insertion sort, lifted over the underlying multiset). -/
def sortedCells (p : Poly) : List Cell :=
  Quot.liftOn p.val (fun l => l.insertionSort cellLE)
    (fun l1 l2 h => List.eq_of_perm_of_sorted
      (((List.perm_insertionSort cellLE l1).trans h).trans
        (List.perm_insertionSort cellLE l2).symm)
      (List.sorted_insertionSort cellLE l1)
      (List.sorted_insertionSort cellLE l2))

/-- The connected components of a cell set, in first-cell order. -/
def cellComponents (p : Poly) : List Poly :=
  ((sortedCells p).foldl
    (fun acc c =>
      if c ∈ acc.2 then acc
      else (acc.1 ++ [reachCells p c], acc.2 ∪ reachCells p c))
    (([] : List Poly), (∅ : Finset Cell))).1

/-- The GEOS `difference` result as a typed geometry: a `Polygon` when the
cell set is empty or connected, a `MultiPolygon` of its connected parts
otherwise. -/
def toPGeom (d : Poly) : PGeom :=
  match cellComponents d with
  | [] => .poly ∅
  | [c] => .poly c
  | cs => .multi cs

/-- The default attribute values given to every new shallow sediment
feature (`default_vals` of stage 07). -/
structure SedAttrs where
  edgeSrc : String
  notes : Option String
  featConf : String
  typeConf : String
  edgeAccM : ℕ
  rbTypeL3 : String
  depthCat : Option String
  depthCatSr : Option String
  featL3 : String
  geoAttach : String
  relief : String
  flowInflu : String
  soL2 : String
  paleo : String
deriving DecidableEq

def defaultVals : SedAttrs :=
  { edgeSrc := "Semi-auto shallow mask"
    notes := none
    featConf := "Medium"
    typeConf := "Medium"
    edgeAccM := 250
    rbTypeL3 := "Shallow sediment"
    depthCat := none
    depthCatSr := none
    featL3 := "Shallow Sediment"
    geoAttach := "Fringing"
    relief := "Low"
    flowInflu := "Unknown"
    soL2 := "Terrigenous"
    paleo := "No" }

structure SedFeature where
  attrs : SedAttrs
  geom : PGeom
deriving DecidableEq

/-- The per-polygon emission of stage 07: a `MultiPolygon` is split into its
constituent parts, each valid non-empty part becoming its own feature with
the default attribute values; any other non-empty processed geometry
becomes a single feature. -/
def emitFeatures (processed : Option PGeom) : List SedFeature :=
  match processed with
  | none => []
  | some pg =>
      if pg.isEmptyG then []
      else match pg with
        | .multi ps =>
            ps.filterMap (fun p =>
              if p = ∅ then none else some ⟨defaultVals, .poly p⟩)
        | g => [⟨defaultVals, g⟩]

/-- The shallow-sediment creation loop of stage 07: skip empty mask
polygons, subtract the dissolved reef footprint, normalise the result with
`process_geometry`, and emit the features. -/
def createdSediment (shallow : List Poly) (dissolvedNW : Poly) :
    List SedFeature :=
  shallow.flatMap (fun g =>
    if g = ∅ then []
    else emitFeatures (processGeometry (toPGeom (g \ dissolvedNW))))

def exShallow : Poly := rowCells 2

/-! ## Stage 04 — `04-merge-rocky-reefs.py` -/
structure NWFeat where
  debugId : ℕ
  featL3 : String
  geom : Poly
deriving DecidableEq

def nwDefault : NWFeat := ⟨0, "", ∅⟩

def nwAt (nw : List NWFeat) (i : ℕ) : NWFeat := nw.getD i nwDefault

/-- Original indices of the rocky-reef rows
(`Feat_L3.str.fullmatch("Rocky Reef")`). -/
def rockIdxs (nw : List NWFeat) : List ℕ :=
  (List.range nw.length).filter (fun i => decide ((nwAt nw i).featL3 = "Rocky Reef"))

def nRock (nw : List NWFeat) : ℕ := (rockIdxs nw).length

/-- `idx_mapping`: reset-index rock position → original index. -/
def idxMap (nw : List NWFeat) (p : ℕ) : ℕ := (rockIdxs nw).getD p nw.length

def rockAt (nw : List NWFeat) (p : ℕ) : NWFeat := nwAt nw (idxMap nw p)

def rockGeom (nw : List NWFeat) (p : ℕ) : Poly := (rockAt nw p).geom

/-- The `touches(...) or intersects(...)` test of the AIMS tagging loop. -/
def touchesNWRock (nw : List NWFeat) (a : Poly) (p : ℕ) : Prop :=
  touches a (rockGeom nw p) ∨ intersects a (rockGeom nw p)

instance touchesNWRockDec (nw : List NWFeat) (a : Poly) (p : ℕ) :
    Decidable (touchesNWRock nw a p) := by
  unfold touchesNWRock; infer_instance

/-- `touched_nws` for one AIMS polygon: the rock positions it touches, in
candidate order. -/
def touchedNW (nw : List NWFeat) (a : Poly) : List ℕ :=
  (List.range (nRock nw)).filter (fun p => decide (touchesNWRock nw a p))

/-- `nw_groups[p]`: the AIMS geometries attached to rock position `p`. -/
def nwGroups (nw : List NWFeat) (aims : List Poly) (p : ℕ) : List Poly :=
  aims.filter (fun a => decide (touchesNWRock nw a p))

/-- `nw_connections` as an insertion-ordered symmetric graph over rock
positions: the key list in first-insertion order plus the adjacency map. -/
structure OGraph where
  keys : List ℕ
  adj : ℕ → Finset ℕ

def emptyGraph : OGraph := ⟨[], fun _ => ∅⟩

def insertKey (g : OGraph) (i : ℕ) : OGraph :=
  if i ∈ g.keys then g else { g with keys := g.keys ++ [i] }

/-- Recording the mutual connections among the NW features co-touched by
one AIMS polygon; nothing is recorded when it touches at most one. -/
def addPairs (g : OGraph) (touched : List ℕ) : OGraph :=
  if touched.length ≤ 1 then g
  else
    touched.foldl
      (fun g2 i =>
        let g3 := insertKey g2 i
        { g3 with adj := fun j =>
            if j = i then g3.adj i ∪ touched.toFinset.erase i else g3.adj j })
      g

def buildGraph (nw : List NWFeat) (aims : List Poly) : OGraph :=
  aims.foldl (fun g a => addPairs g (touchedNW nw a)) emptyGraph

/-- One step of graph reachability: add all neighbours. -/
def stepAdj (adj : ℕ → Finset ℕ) (s : Finset ℕ) : Finset ℕ :=
  s ∪ s.biUnion adj

/-- Everything reachable from `k` (the key count bounds every path length). -/
def reach (g : OGraph) (k : ℕ) : Finset ℕ :=
  (stepAdj g.adj)^[g.keys.length] {k}

/-- `find_connected_components`: scan the keys in insertion order; each
unvisited key starts a new component holding everything reachable from it.
The graph built by `addPairs` is symmetric, so nodes of finished components
are never re-reached and subtracting the visited set matches the
depth-first traversal of the source. -/
def componentsAux (g : OGraph) : List ℕ → Finset ℕ → List (ℕ × Finset ℕ)
  | [], _ => []
  | k :: rest, visited =>
      if k ∈ visited then componentsAux g rest visited
      else (k, reach g k \ visited)
        :: componentsAux g rest (visited ∪ (reach g k \ visited))

def components (g : OGraph) : List (ℕ × Finset ℕ) :=
  componentsAux g g.keys ∅

/-- `nw_features_to_remove` at rock-position level: the non-primary members
of every component. -/
def removedRockPos (nw : List NWFeat) (aims : List Poly) : Finset ℕ :=
  (components (buildGraph nw aims)).foldr (fun c acc => (c.2.erase c.1) ∪ acc) ∅

/-- All rock positions that belong to some component. -/
def compMembers (nw : List NWFeat) (aims : List Poly) : Finset ℕ :=
  (components (buildGraph nw aims)).foldr (fun c acc => c.2 ∪ acc) ∅

/-- `isolated_nw_indices`: touched by some AIMS polygon but in no
component. -/
def isolatedPos (nw : List NWFeat) (aims : List Poly) : Finset ℕ :=
  ((List.range (nRock nw)).filter
      (fun p => decide (¬ nwGroups nw aims p = []))).toFinset
    \ compMembers nw aims

/-- Dissolved geometry of a component (`unary_union(all_geoms)`): the
primary member and its attached AIMS polygons together with every other
member and its attached AIMS polygons. -/
def dissolvedGeom (nw : List NWFeat) (aims : List Poly) (c : ℕ × Finset ℕ) : Poly :=
  (rockGeom nw c.1 ∪ unionAll (nwGroups nw aims c.1))
    ∪ (c.2.erase c.1).biUnion (fun p => rockGeom nw p ∪ unionAll (nwGroups nw aims p))

/-- Dissolved geometry of an isolated touched rock feature. -/
def isolatedGeom (nw : List NWFeat) (aims : List Poly) (p : ℕ) : Poly :=
  unionAll (rockGeom nw p :: nwGroups nw aims p)

/-- The output geometry of rock position `p` after the dissolve step. -/
def stage04Geom (nw : List NWFeat) (aims : List Poly) (p : ℕ) : Poly :=
  if p ∈ isolatedPos nw aims then isolatedGeom nw aims p
  else
    match (components (buildGraph nw aims)).find? (fun c => decide (c.1 = p)) with
    | some c => dissolvedGeom nw aims c
    | none => rockGeom nw p

def posAux : List ℕ → ℕ → Option ℕ
  | [], _ => none
  | x :: xs, i => if x = i then some 0 else (posAux xs i).map (· + 1)

/-- The rock position of original row `i`, if row `i` is a rocky reef. -/
def posInRock (nw : List NWFeat) (i : ℕ) : Option ℕ := posAux (rockIdxs nw) i

/-- Row `i` of the NW table after the dissolve step: non-rock rows are
unchanged, primaries and isolated rocks get their dissolved geometry with
all attributes kept, and non-primary component members are removed. -/
def stage04Row (nw : List NWFeat) (aims : List Poly) (i : ℕ) : Option NWFeat :=
  match posInRock nw i with
  | none => some (nwAt nw i)
  | some p =>
      if p ∈ removedRockPos nw aims then none
      else some { nwAt nw i with geom := stage04Geom nw aims p }

/-- The NW rows surviving stage 04, before the new AIMS features are
appended (the appended AIMS rows carry a null `DebugID`). -/
def stage04NW (nw : List NWFeat) (aims : List Poly) : List NWFeat :=
  (List.range nw.length).filterMap (stage04Row nw aims)

/-- `nw_ids_original`. -/
def originalIds (nw : List NWFeat) : Finset ℕ :=
  (nw.map (fun f => f.debugId)).toFinset

/-- `output_ids` restricted to the NW rows (the appended AIMS rows have a
null `DebugID` and contribute nothing). -/
def outputIds (nw : List NWFeat) (aims : List Poly) : Finset ℕ :=
  ((stage04NW nw aims).map (fun f => f.debugId)).toFinset

/-- `missing_nw_ids = nw_ids_original - output_ids`. -/
def missingIds (nw : List NWFeat) (aims : List Poly) : Finset ℕ :=
  originalIds nw \ outputIds nw aims

/-- The identifiers written to the missing-features report: every missing
identifier whose lookup in the original table is non-empty. -/
def reportIds (nw : List NWFeat) (aims : List Poly) : Finset ℕ :=
  (missingIds nw aims).filter
    (fun id => ¬ nw.filter (fun f => decide (f.debugId = id)) = [])

/-- Concrete stage-04 fixture: five rocky reefs and two AIMS polygons; the
first AIMS polygon touches rocks 3 and 4, the second touches rocks 1 and 3. -/
def exNW : List NWFeat :=
  [⟨0, "Rocky Reef", {((0:ℤ), (0:ℤ))}⟩,
   ⟨1, "Rocky Reef", {((10:ℤ), (0:ℤ))}⟩,
   ⟨2, "Rocky Reef", {((20:ℤ), (0:ℤ))}⟩,
   ⟨3, "Rocky Reef", {((30:ℤ), (0:ℤ))}⟩,
   ⟨4, "Rocky Reef", {((40:ℤ), (0:ℤ))}⟩]

def exAims : List Poly :=
  [{((30:ℤ), (0:ℤ)), ((40:ℤ), (0:ℤ))}, {((10:ℤ), (0:ℤ)), ((30:ℤ), (0:ℤ))}]

theorem mem_unionAll {x : Cell} {l : List Poly} :
    x ∈ unionAll l ↔ ∃ p ∈ l, x ∈ p := by
  induction l with
  | nil => simp [unionAll]
  | cons h t ih =>
      simp only [unionAll, List.foldr_cons, Finset.mem_union, List.mem_cons]
      rw [show List.foldr (· ∪ ·) ∅ t = unionAll t from rfl]
      constructor
      · rintro (hx | hx)
        · exact ⟨h, Or.inl rfl, hx⟩
        · obtain ⟨p, hp, hxp⟩ := ih.mp hx
          exact ⟨p, Or.inr hp, hxp⟩
      · rintro ⟨p, hp | hp, hxp⟩
        · exact Or.inl (hp ▸ hxp)
        · exact Or.inr (ih.mpr ⟨p, hp, hxp⟩)

theorem area_eq_div (p : Poly) : area p = (p.card : ℚ) / 10000 := by
  unfold area cellArea
  rw [Rat.mkRat_eq_div]
  push_cast
  ring

theorem area_nonneg (p : Poly) : 0 ≤ area p := by
  rw [area_eq_div]; positivity

theorem area_mono {p q : Poly} (h : p ⊆ q) : area p ≤ area q := by
  rw [area_eq_div, area_eq_div]
  have hc : (p.card : ℚ) ≤ (q.card : ℚ) := by exact_mod_cast Finset.card_le_card h
  gcongr

theorem area_empty : area (∅ : Poly) = 0 := by
  rw [area_eq_div]
  simp

/-! Bridges from the rational area comparisons of the source to cell counts,
so that concrete instances can be evaluated by `decide`. -/
theorem area_gt_cut_iff (p : Poly) : area p > cutThreshold ↔ 5 < p.card := by
  unfold cutThreshold
  rw [area_eq_div, Rat.mkRat_eq_div, gt_iff_lt]
  push_cast
  rw [div_lt_div_iff_of_pos_right (by norm_num : (0:ℚ) < 10000)]
  exact_mod_cast Iff.rfl

theorem area_gt_verify_iff (p : Poly) : area p > verifyThreshold ↔ 1 < p.card := by
  unfold verifyThreshold
  rw [area_eq_div, Rat.mkRat_eq_div, gt_iff_lt]
  push_cast
  rw [div_lt_div_iff_of_pos_right (by norm_num : (0:ℚ) < 10000)]
  exact_mod_cast Iff.rfl

theorem cutThreshold_nonneg : 0 ≤ cutThreshold := by
  unfold cutThreshold
  rw [Rat.mkRat_eq_div]
  positivity

theorem verifyThreshold_lt_cutThreshold : verifyThreshold < cutThreshold := by
  unfold verifyThreshold cutThreshold
  rw [Rat.mkRat_eq_div, Rat.mkRat_eq_div]
  norm_num

theorem cutStep_cut_eq (g ov : Poly) :
    cutStep cutThreshold g ov = cutStepB g ov := by
  unfold cutStep cutStepB
  exact if_congr (and_congr Iff.rfl (area_gt_cut_iff _)) rfl rfl

theorem cutFoldT_cut_eq (overlays : List Poly) (g : Poly) :
    cutFoldT cutThreshold overlays g = cutFoldB overlays g := by
  induction overlays generalizing g with
  | nil => rfl
  | cons h t ih =>
      unfold cutFoldT cutFoldB
      simp only [List.foldl_cons]
      rw [cutStep_cut_eq]
      exact ih (cutStepB g h)

theorem resolveFeature_cut_eq (overlays : List Poly) (t : ReefFeature) :
    resolveFeature cutThreshold overlays t = resolveFeatureB overlays t := by
  unfold resolveFeature resolveFeatureB
  rw [cutFoldT_cut_eq]

theorem cutOutOverlaps_cut_eq (targets overlays : List ReefFeature) :
    cutOutOverlaps cutThreshold targets overlays = cutOutOverlapsB targets overlays := by
  unfold cutOutOverlaps cutOutOverlapsB
  split_ifs with h
  · rfl
  · exact List.filterMap_congr (fun t _ => resolveFeature_cut_eq _ t)

/-! Core lemmas about the cumulative cutting loop. -/
theorem cutStep_subset (θ : ℚ) (g ov : Poly) : cutStep θ g ov ⊆ g := by
  unfold cutStep
  split_ifs
  · exact Finset.sdiff_subset
  · exact Finset.Subset.refl g

theorem cutFoldT_subset (θ : ℚ) (l : List Poly) (g : Poly) :
    cutFoldT θ l g ⊆ g := by
  induction l generalizing g with
  | nil => exact Finset.Subset.refl g
  | cons h t ih =>
      unfold cutFoldT
      simp only [List.foldl_cons]
      exact (ih (cutStep θ g h)).trans (cutStep_subset θ g h)

/-- After the cumulative cutting loop, the residual intersection of the
target with every overlay is below the threshold: when the overlay was
processed it was either cut out entirely or its intersection was already
below the threshold, and later cuts only shrink the target. -/
theorem cutFoldT_inter_le (θ : ℚ) (hθ : 0 ≤ θ) (l : List Poly) (g : Poly)
    (ov : Poly) (hov : ov ∈ l) : area (cutFoldT θ l g ∩ ov) ≤ θ := by
  induction l generalizing g with
  | nil => cases hov
  | cons h t ih =>
      unfold cutFoldT
      simp only [List.foldl_cons]
      rcases List.mem_cons.mp hov with heq | hmem
      · subst heq
        by_cases hc : intersects g ov ∧ area (g ∩ ov) > θ
        · have hstep : cutStep θ g ov = g \ ov := by unfold cutStep; rw [if_pos hc]
          rw [hstep]
          have hsub : cutFoldT θ t (g \ ov) ∩ ov ⊆ (g \ ov) ∩ ov :=
            Finset.inter_subset_inter_right (cutFoldT_subset θ t (g \ ov))
          have hempty : (g \ ov) ∩ ov = ∅ := Finset.sdiff_inter_self ov g
          have hzero : cutFoldT θ t (g \ ov) ∩ ov = ∅ :=
            Finset.subset_empty.mp (hempty ▸ hsub)
          show area (cutFoldT θ t (g \ ov) ∩ ov) ≤ θ
          rw [hzero, area_empty]
          exact hθ
        · have hstep : cutStep θ g ov = g := by unfold cutStep; rw [if_neg hc]
          have hle : area (g ∩ ov) ≤ θ := by
            rcases not_and_or.mp hc with hni | hna
            · have hie : (g ∩ ov) = ∅ := by
                by_contra hne
                exact hni (Or.inl (Finset.nonempty_iff_ne_empty.mpr hne))
              rw [hie, area_empty]; exact hθ
            · exact le_of_not_lt hna
          have hsub : cutFoldT θ t g ∩ ov ⊆ g ∩ ov :=
            Finset.inter_subset_inter_right (cutFoldT_subset θ t g)
          rw [hstep]
          show area (cutFoldT θ t g ∩ ov) ≤ θ
          exact (area_mono hsub).trans hle
      · exact ih (cutStep θ g h) hmem

/-- A step that is below threshold leaves the geometry unchanged. -/
theorem cutStep_no_cut (θ : ℚ) (g ov : Poly) (h : area (g ∩ ov) ≤ θ) :
    cutStep θ g ov = g := by
  unfold cutStep
  rw [if_neg]
  rintro ⟨-, hgt⟩
  exact absurd h (not_le.mpr hgt)

theorem foldl_fixed {α β : Type} (f : α → β → α) (g : α) (l : List β)
    (h : ∀ x ∈ l, f g x = g) : l.foldl f g = g := by
  induction l with
  | nil => rfl
  | cons hd t ih =>
      simp only [List.foldl_cons, h hd (List.mem_cons_self hd t)]
      exact ih (fun x hx => h x (List.mem_cons_of_mem hd hx))

theorem filterMap_of_forall_some {α : Type} (f : α → Option α) (l : List α)
    (h : ∀ x ∈ l, f x = some x) : l.filterMap f = l := by
  induction l with
  | nil => rfl
  | cons hd t ih =>
      rw [List.filterMap_cons, h hd (List.mem_cons_self hd t)]
      rw [ih (fun x hx => h x (List.mem_cons_of_mem hd hx))]

theorem identifyOverlaps_eq (cand : ℕ → List ℕ) (feats : List ReefFeature) :
    identifyOverlaps cand feats = identifyOverlapsB cand feats := by
  unfold identifyOverlaps identifyOverlapsB
  apply List.flatMap_congr
  intro fi _
  split_ifs with h
  · rfl
  · apply List.flatMap_congr
    intro fj _
    exact if_congr
      (and_congr Iff.rfl (and_congr Iff.rfl (and_congr Iff.rfl (and_congr Iff.rfl
        (and_congr Iff.rfl (area_gt_verify_iff _)))))) rfl rfl

/-- C1: for a higher-priority overlay `A` and a lower-priority target `B`
whose intersection area exceeds the cut threshold, the target feature that
survives `cut_out_overlaps` retains at most a below-threshold (≈ 0, i.e.
within the declared noise tolerance `0.0005`) intersection with `A`. -/
theorem cut_out_overlaps_removes_significant_overlap
    (targets overlays : List ReefFeature) (A B : ReefFeature)
    (hA : A ∈ overlays) (hB : B ∈ targets)
    (hbig : area (B.geom ∩ A.geom) > cutThreshold)
    (B1 : ReefFeature)
    (hres : resolveFeature cutThreshold (overlays.map (·.geom)) B = some B1) :
    area (B1.geom ∩ A.geom) ≤ cutThreshold := by
  have hgeom : B1.geom = cutFoldT cutThreshold (overlays.map (·.geom)) B.geom := by
    unfold resolveFeature at hres
    by_cases h : cutFoldT cutThreshold (overlays.map (·.geom)) B.geom = ∅
    · rw [if_pos h] at hres; cases hres
    · rw [if_neg h] at hres
      have := Option.some.inj hres
      rw [← this]
  rw [hgeom]
  exact cutFoldT_inter_le cutThreshold cutThreshold_nonneg _ B.geom A.geom
    (List.mem_map_of_mem _ hA)

theorem cut_out_overlaps_removes_significant_overlap_witness :
    area (exResolved.geom ∩ exOverlaySix.geom) ≤ cutThreshold :=
  cut_out_overlaps_removes_significant_overlap
    [exTarget] [exOverlaySix] exOverlaySix exTarget
    (by decide) (by decide)
    (by rw [area_gt_cut_iff]; decide)
    exResolved
    (by rw [resolveFeature_cut_eq]; decide)

/-- C3 (counterexample): with the positive cut threshold `0.0005` the final
resolved geometry of `cut_out_overlaps` depends on the order in which the
overlay features are applied.  Cutting the full-row overlay first removes
the target entirely; cutting the seven-cell overlay first leaves three
cells, after which the full-row overlay falls below the threshold and is
not cut. -/
theorem cut_order_dependence_cex :
    cutOutOverlaps cutThreshold [exTarget] [exOverlayFull, exOverlayPart]
      ≠ cutOutOverlaps cutThreshold [exTarget] [exOverlayPart, exOverlayFull] := by
  rw [cutOutOverlaps_cut_eq, cutOutOverlaps_cut_eq]
  decide

theorem cutStep_zero (g ov : Poly) : cutStep 0 g ov = g \ ov := by
  unfold cutStep
  split_ifs with h
  · rfl
  · have hie : g ∩ ov = ∅ := by
      by_contra hne
      apply h
      constructor
      · exact Or.inl (Finset.nonempty_iff_ne_empty.mpr hne)
      · rw [gt_iff_lt, area_eq_div]
        have : 0 < (g ∩ ov).card := Finset.card_pos.mpr
          (Finset.nonempty_iff_ne_empty.mpr hne)
        positivity
    rw [Finset.sdiff_eq_self_iff_disjoint.mpr (Finset.disjoint_iff_inter_eq_empty.mpr hie)]

theorem cutFoldT_zero (l : List Poly) (g : Poly) :
    cutFoldT 0 l g = g \ unionAll l := by
  induction l generalizing g with
  | nil => unfold cutFoldT unionAll; simp
  | cons h t ih =>
      unfold cutFoldT
      simp only [List.foldl_cons]
      rw [cutStep_zero]
      show cutFoldT 0 t (g \ h) = g \ unionAll (h :: t)
      rw [ih]
      ext x
      simp only [Finset.mem_sdiff, mem_unionAll, List.mem_cons]
      constructor
      · rintro ⟨⟨hx, hnh⟩, hnt⟩
        exact ⟨hx, by rintro ⟨p, rfl | hp, hxp⟩; exact hnh hxp; exact hnt ⟨p, hp, hxp⟩⟩
      · rintro ⟨hx, hn⟩
        exact ⟨⟨hx, fun hxh => hn ⟨h, Or.inl rfl, hxh⟩⟩,
          fun ⟨p, hp, hxp⟩ => hn ⟨p, Or.inr hp, hxp⟩⟩

theorem unionAll_perm {l1 l2 : List Poly} (h : l1.Perm l2) :
    unionAll l1 = unionAll l2 := by
  ext x
  rw [mem_unionAll, mem_unionAll]
  constructor
  · rintro ⟨p, hp, hxp⟩; exact ⟨p, h.mem_iff.mp hp, hxp⟩
  · rintro ⟨p, hp, hxp⟩; exact ⟨p, h.mem_iff.mpr hp, hxp⟩

/-- C3 (amended): in the all-or-nothing regime — threshold `0`, where every
positive-area overlap triggers a cut — the final resolved feature set of
`cut_out_overlaps` is the same for every permutation of the overlay
features, because the cumulative difference then equals the difference
against the union of all overlays. -/
theorem cut_order_independent_amended
    (targets : List ReefFeature) (l1 l2 : List ReefFeature) (h : l1.Perm l2) :
    cutOutOverlaps 0 targets l1 = cutOutOverlaps 0 targets l2 := by
  have hg : ∀ g : Poly, cutFoldT 0 (l1.map (·.geom)) g = cutFoldT 0 (l2.map (·.geom)) g := by
    intro g
    rw [cutFoldT_zero, cutFoldT_zero, unionAll_perm (h.map (·.geom))]
  unfold cutOutOverlaps
  by_cases hif : targets = [] ∨ l1 = []
  · have hif2 : targets = [] ∨ l2 = [] := by
      rcases hif with h1 | h1
      · exact Or.inl h1
      · subst h1; exact Or.inr h.symm.eq_nil
    rw [if_pos hif, if_pos hif2]
  · have hif2 : ¬ (targets = [] ∨ l2 = []) := by
      push_neg at hif ⊢
      refine ⟨hif.1, fun h2 => hif.2 ?_⟩
      subst h2
      exact h.eq_nil
    rw [if_neg hif, if_neg hif2]
    apply List.filterMap_congr
    intro t _
    unfold resolveFeature
    rw [hg t.geom]

theorem cut_order_independent_amended_witness :
    cutOutOverlaps 0 [exTarget] [exOverlayPart, exOverlaySix]
      = cutOutOverlaps 0 [exTarget] [exOverlaySix, exOverlayPart] :=
  cut_order_independent_amended [exTarget] [exOverlayPart, exOverlaySix]
    [exOverlaySix, exOverlayPart] (by decide)

/-- C5: `cut_out_overlaps` is idempotent — applying it a second time, with
the same overlay set and threshold, to a target set it has already resolved
changes no feature geometry and removes no feature, because every residual
intersection is below the threshold and the difference is a no-op. -/
theorem priority_resolver_idempotent (targets overlays : List ReefFeature) :
    cutOutOverlaps cutThreshold (cutOutOverlaps cutThreshold targets overlays) overlays
      = cutOutOverlaps cutThreshold targets overlays := by
  by_cases h0 : targets = [] ∨ overlays = []
  · have h1 : cutOutOverlaps cutThreshold targets overlays = targets := by
      unfold cutOutOverlaps; rw [if_pos h0]
    rw [h1]
    unfold cutOutOverlaps; rw [if_pos h0]
  · have h1 : cutOutOverlaps cutThreshold targets overlays
        = targets.filterMap (resolveFeature cutThreshold (overlays.map (·.geom))) := by
      unfold cutOutOverlaps; rw [if_neg h0]
    rw [h1]
    set out := targets.filterMap (resolveFeature cutThreshold (overlays.map (·.geom))) with hout
    by_cases hoe : out = []
    · unfold cutOutOverlaps
      rw [if_pos (Or.inl hoe)]
    · unfold cutOutOverlaps
      rw [if_neg (by push_neg; exact ⟨hoe, (not_or.mp h0).2⟩)]
      apply filterMap_of_forall_some
      intro B1 hB1
      obtain ⟨B, hB, hres⟩ := List.mem_filterMap.mp hB1
      have hne : cutFoldT cutThreshold (overlays.map (·.geom)) B.geom ≠ ∅ := by
        intro hc
        unfold resolveFeature at hres
        rw [if_pos hc] at hres
        cases hres
      have hgeom : B1.geom = cutFoldT cutThreshold (overlays.map (·.geom)) B.geom := by
        unfold resolveFeature at hres
        rw [if_neg hne] at hres
        rw [← Option.some.inj hres]
      have hfix : cutFoldT cutThreshold (overlays.map (·.geom)) B1.geom = B1.geom := by
        apply foldl_fixed
        intro ov hov
        apply cutStep_no_cut
        rw [hgeom]
        exact cutFoldT_inter_le cutThreshold cutThreshold_nonneg _ B.geom ov hov
      unfold resolveFeature
      rw [if_neg (by rw [hfix, hgeom]; exact hne)]
      rw [hfix]

/-- C8: every overlap reported by the post-resolution verification scan
`identify_overlaps` comes from a genuine intersection: a pair whose
geometries merely touch (zero-area shared boundary) is never reported, the
recorded intersection area exceeds the verification threshold `0.0001`,
and that threshold is stricter than the `0.0005` cut threshold. -/
theorem verification_scan_reports
    (cand : ℕ → List ℕ) (feats : List ReefFeature) (r : OverlapRec)
    (hr : r ∈ identifyOverlaps cand feats) :
    area r.inter > verifyThreshold ∧ verifyThreshold < cutThreshold ∧
    r.inter.Nonempty ∧
    ∃ fi ∈ feats, ∃ fj ∈ feats,
      r.inter = fi.geom ∩ fj.geom ∧ intersects fi.geom fj.geom
        ∧ ¬ touches fi.geom fj.geom := by
  unfold identifyOverlaps at hr
  rw [List.mem_flatMap] at hr
  obtain ⟨fi, hfi, hr⟩ := hr
  by_cases hie : fi.2.geom = ∅
  · rw [if_pos hie] at hr; cases hr
  rw [if_neg hie, List.mem_flatMap] at hr
  obtain ⟨fj, hfj, hr⟩ := hr
  by_cases hcond : fj.1 ∈ cand fi.1 ∧ fi.1 < fj.1 ∧ fj.2.geom ≠ ∅
      ∧ intersects fi.2.geom fj.2.geom ∧ ¬ touches fi.2.geom fj.2.geom
      ∧ area (fi.2.geom ∩ fj.2.geom) > verifyThreshold
  · rw [if_pos hcond] at hr
    obtain ⟨-, -, -, hint, htch, harea⟩ := hcond
    have hre := List.mem_singleton.mp hr
    subst hre
    have hmemi : fi.2 ∈ feats := by
      rw [← List.enum_map_snd feats]
      exact List.mem_map_of_mem Prod.snd hfi
    have hmemj : fj.2 ∈ feats := by
      rw [← List.enum_map_snd feats]
      exact List.mem_map_of_mem Prod.snd hfj
    refine ⟨harea, verifyThreshold_lt_cutThreshold, ?_, fi.2, hmemi, fj.2, hmemj,
      rfl, hint, htch⟩
    have hcard : 1 < (fi.2.geom ∩ fj.2.geom).card := (area_gt_verify_iff _).mp harea
    exact Finset.card_pos.mp (Nat.lt_of_lt_of_le Nat.zero_lt_one hcard.le)
  · rw [if_neg hcond] at hr
    cases hr

theorem verification_scan_reports_witness :
    area exRec.inter > verifyThreshold ∧ verifyThreshold < cutThreshold ∧
    exRec.inter.Nonempty ∧
    ∃ fi ∈ [exTarget, exOverlayPart], ∃ fj ∈ [exTarget, exOverlayPart],
      exRec.inter = fi.geom ∩ fj.geom ∧ intersects fi.geom fj.geom
        ∧ ¬ touches fi.geom fj.geom :=
  verification_scan_reports exCand [exTarget, exOverlayPart] exRec
    (by rw [identifyOverlaps_eq]; decide)

/-- C9: the priority-cut stages modify only the lower-priority target
features.  In stage 02 every high intertidal reef (the overlay tier) and
every feature of a type not involved in the cut is carried into the output
with geometry and all attributes unchanged, and in stage 05 every rocky
reef is carried into the output unchanged. -/
theorem priority_cut_frame_effect (gdf : List ReefFeature) (gdf5 : List Feat05) :
    (∀ f ∈ gdf, f.rbTypeL3 = "High Intertidal Coral Reef" → f ∈ stage02Result gdf) ∧
    (∀ f ∈ gdf, ¬ (f.rbTypeL3 = "High Intertidal Coral Reef"
        ∨ f.rbTypeL3 = "Platform Coral Reef" ∨ f.rbTypeL3 = "Fringing Coral Reef")
      → f ∈ stage02Result gdf) ∧
    (∀ f ∈ gdf5, f.featL3 = "Rocky Reef" → f ∈ stage05Result gdf5) := by
  refine ⟨?_, ?_, ?_⟩
  · intro f hf hty
    have hmem : f ∈ highIntertidal gdf := by
      unfold highIntertidal
      rw [List.mem_filter]
      exact ⟨hf, by simp [hty]⟩
    unfold stage02Result
    simp only [List.mem_append]
    tauto
  · intro f hf hty
    have hmem : f ∈ otherFeatures gdf := by
      unfold otherFeatures
      rw [List.mem_filter]
      exact ⟨hf, by simp [hty]⟩
    unfold stage02Result
    simp only [List.mem_append]
    tauto
  · intro f hf hty
    have hmem : f ∈ rockyReefs gdf5 := by
      unfold rockyReefs
      rw [List.mem_filter]
      exact ⟨hf, by simp [hty]⟩
    unfold stage05Result
    simp only [List.mem_append]
    tauto

theorem priority_cut_frame_effect_witness :
    exOverlaySix ∈ stage02Result [exTarget, exOverlaySix]
      ∧ exRock ∈ stage05Result [exRock] :=
  ⟨(priority_cut_frame_effect [exTarget, exOverlaySix] []).1 exOverlaySix
      (by decide) (by decide),
    (priority_cut_frame_effect [] [exRock]).2.2 exRock (by decide) (by decide)⟩

theorem keep_not_removed (u : Poly) (f : ClipFeat) :
    keepClipped { f with geom := clipGeometry u f.geom }
      = !(removedByClip u f) := by
  cases hg : f.geom with
  | none => simp [keepClipped, clipGeometry, removedByClip, hg]
  | some g =>
      by_cases hsub : g \ u = ∅
      · have : g ⊆ u := Finset.sdiff_eq_empty_iff_subset.mp hsub
        simp [keepClipped, clipGeometry, removedByClip, hg, hsub, this]
      · have : ¬ g ⊆ u := fun hs => hsub (Finset.sdiff_eq_empty_iff_subset.mpr hs)
        simp [keepClipped, clipGeometry, removedByClip, hg, hsub, this]

/-- C6: the land-clipping stage never increases any feature area; a feature
whose geometry is entirely contained in the coastline union clips to an
empty result and is removed, decreasing the output count by exactly one for
each such (or missing-geometry) feature; and no empty-geometry feature
survives in the output. -/
theorem clip_filter_properties (feats : List ClipFeat) (coast : List Poly) :
    (∀ g g1 : Poly, clipGeometry (unionAll coast) (some g) = some g1 →
        area g1 ≤ area g) ∧
    (∀ g : Poly, g ⊆ unionAll coast →
        clipGeometry (unionAll coast) (some g) = none) ∧
    ((applyCoastlineClipping feats coast).length
        = feats.length - feats.countP (removedByClip (unionAll coast))) ∧
    (∀ f ∈ applyCoastlineClipping feats coast, ∃ g : Poly, f.geom = some g ∧ g ≠ ∅) := by
  refine ⟨?_, ?_, ?_, ?_⟩
  · intro g g1 hcg
    simp only [clipGeometry] at hcg
    by_cases h : g \ unionAll coast = ∅
    · rw [if_pos h] at hcg; cases hcg
    · rw [if_neg h] at hcg
      rw [← Option.some.inj hcg]
      exact area_mono Finset.sdiff_subset
  · intro g hsub
    simp only [clipGeometry]
    rw [if_pos (Finset.sdiff_eq_empty_iff_subset.mpr hsub)]
  · induction feats with
    | nil => rfl
    | cons f t ih =>
        unfold applyCoastlineClipping at ih ⊢
        have hle : t.countP (removedByClip (unionAll coast)) ≤ t.length :=
          List.countP_le_length _
        rw [List.map_cons, List.filter_cons, keep_not_removed, List.countP_cons]
        cases hrm : removedByClip (unionAll coast) f
        · simp only [Bool.not_false, if_true, List.length_cons, ih]
          simp
          omega
        · simp only [Bool.not_true, Bool.false_eq_true, if_false, ih]
          simp
  · intro f hf
    unfold applyCoastlineClipping at hf
    have hk := List.of_mem_filter hf
    unfold keepClipped at hk
    cases hg : f.geom with
    | none => rw [hg] at hk; cases hk
    | some g =>
        rw [hg] at hk
        exact ⟨g, rfl, by simpa using hk⟩

/-- C7 (counterexample): stage 02 writes its output even when the target
output file already exists, so the claim that every stage aborts on an
existing output fails on stage 02. -/
theorem stage_output_guard_cex :
    StageEvent.wroteOutput ∈ stage02Trace true true
      ∧ stage02Trace true true ≠ [StageEvent.aborted] := by decide

/-- C7 (amended): only stage 03 guards its output — when its target output
exists it aborts before writing; stage 02 performs no such check and writes
its output whenever its input exists, even over an existing file. -/
theorem stage_output_guard_amended (i o : Bool) :
    (o = true → stage03Trace i o = [StageEvent.aborted]
      ∧ StageEvent.wroteOutput ∉ stage03Trace i o) ∧
    (i = true → StageEvent.wroteOutput ∈ stage02Trace i o) := by
  constructor
  · intro h
    subst h
    simp [stage03Trace]
  · intro h
    subst h
    simp [stage02Trace]

theorem stage_output_guard_amended_witness :
    (stage03Trace true true = [StageEvent.aborted]
      ∧ StageEvent.wroteOutput ∉ stage03Trace true true)
      ∧ StageEvent.wroteOutput ∈ stage02Trace true false :=
  ⟨(stage_output_guard_amended true true).1 rfl,
   (stage_output_guard_amended true false).2 rfl⟩

theorem toPGeom_shape (d : Poly) :
    (∃ p, toPGeom d = .poly p) ∨ (∃ ps, toPGeom d = .multi ps) := by
  unfold toPGeom
  split
  · exact Or.inl ⟨∅, rfl⟩
  · exact Or.inl ⟨_, rfl⟩
  · exact Or.inr ⟨_, rfl⟩

theorem emit_processed_poly (p : Poly) :
    emitFeatures (processGeometry (PGeom.poly p))
      = if p = ∅ then [] else [⟨defaultVals, PGeom.poly p⟩] := by
  by_cases hp : p = ∅
  · simp [processGeometry, emitFeatures, PGeom.isEmptyG, hp]
  · simp [processGeometry, emitFeatures, PGeom.isEmptyG, hp]

theorem emit_processed_multi (ps : List Poly) :
    emitFeatures (processGeometry (PGeom.multi ps))
      = if ps.all (fun p => decide (p = ∅)) then []
        else ps.filterMap (fun p =>
          if p = ∅ then none else some ⟨defaultVals, PGeom.poly p⟩) := by
  by_cases hp : ps.all (fun p => decide (p = ∅))
  · simp [processGeometry, emitFeatures, PGeom.isEmptyG, hp]
  · simp [processGeometry, emitFeatures, PGeom.isEmptyG, hp]

/-- C10: every shallow-sediment feature created by the gap-fill stage is a
single-part `Polygon` (a `MultiPolygon` difference result having been split
into its parts), carries exactly the declared default attribute values, and
is non-empty. -/
theorem sediment_features_single_part (shallow : List Poly) (dissolvedNW : Poly)
    (f : SedFeature) (hf : f ∈ createdSediment shallow dissolvedNW) :
    f.attrs = defaultVals ∧ ∃ p : Poly, f.geom = PGeom.poly p ∧ p ≠ ∅ := by
  unfold createdSediment at hf
  rw [List.mem_flatMap] at hf
  obtain ⟨g, hg, hf⟩ := hf
  by_cases hge : g = ∅
  · rw [if_pos hge] at hf; cases hf
  rw [if_neg hge] at hf
  rcases toPGeom_shape (g \ dissolvedNW) with ⟨p, hp⟩ | ⟨ps, hp⟩
  · rw [hp, emit_processed_poly] at hf
    by_cases hpz : p = ∅
    · rw [if_pos hpz] at hf; cases hf
    · rw [if_neg hpz] at hf
      have hfe := List.mem_singleton.mp hf
      subst hfe
      exact ⟨rfl, p, rfl, hpz⟩
  · rw [hp, emit_processed_multi] at hf
    by_cases hpe : ps.all (fun p => decide (p = ∅))
    · rw [if_pos hpe] at hf; cases hf
    · rw [if_neg hpe] at hf
      rw [List.mem_filterMap] at hf
      obtain ⟨p, hpmem, hpsome⟩ := hf
      by_cases hpz : p = ∅
      · rw [if_pos hpz] at hpsome; cases hpsome
      · rw [if_neg hpz] at hpsome
        rw [← Option.some.inj hpsome]
        exact ⟨rfl, p, rfl, hpz⟩

theorem sediment_features_single_part_witness :
    (⟨defaultVals, PGeom.poly exShallow⟩ : SedFeature).attrs = defaultVals ∧
    ∃ p : Poly, (⟨defaultVals, PGeom.poly exShallow⟩ : SedFeature).geom = PGeom.poly p
      ∧ p ≠ ∅ :=
  sediment_features_single_part [exShallow] ∅ ⟨defaultVals, PGeom.poly exShallow⟩
    (by decide)

/-- C2 (counterexample): the component `{1, 3, 4}` is discovered from rock
feature 3 — the first rock inserted into the connectivity graph while
scanning the AIMS polygons in input order — so feature 3 survives the
dissolve and keeps its attributes, while feature 1, the first of the
component by the original input ordering, is removed from the output. -/
theorem merge_first_by_ordering_cex :
    components (buildGraph exNW exAims) = [(3, ({1, 3, 4} : Finset ℕ))]
      ∧ (1 : ℕ) ∉ outputIds exNW exAims
      ∧ (3 : ℕ) ∈ outputIds exNW exAims := by decide

/-- C4: every original NW `DebugID` is accounted for exactly once by the
stage-04 validation: it either appears among the output identifiers (and is
then neither missing nor reported) or it is missing and recorded in the
missing-features report — never both and never neither. -/
theorem merger_ids_accounted (nw : List NWFeat) (aims : List Poly) (id : ℕ)
    (hid : id ∈ originalIds nw) :
    (id ∈ outputIds nw aims ∧ id ∉ missingIds nw aims ∧ id ∉ reportIds nw aims)
    ∨ (id ∉ outputIds nw aims ∧ id ∈ missingIds nw aims ∧ id ∈ reportIds nw aims) := by
  by_cases ho : id ∈ outputIds nw aims
  · left
    have hnm : id ∉ missingIds nw aims := by
      unfold missingIds
      rw [Finset.mem_sdiff]
      push_neg
      intro
      exact ho
    refine ⟨ho, hnm, fun hr => hnm ?_⟩
    exact Finset.mem_of_mem_filter id hr
  · right
    have hm : id ∈ missingIds nw aims := Finset.mem_sdiff.mpr ⟨hid, ho⟩
    have hr : id ∈ reportIds nw aims := by
      unfold reportIds
      rw [Finset.mem_filter]
      refine ⟨hm, ?_⟩
      unfold originalIds at hid
      rw [List.mem_toFinset, List.mem_map] at hid
      obtain ⟨f, hf, hfid⟩ := hid
      intro hnil
      have hmem : f ∈ nw.filter (fun f => decide (f.debugId = id)) :=
        List.mem_filter.mpr ⟨hf, by simp [hfid]⟩
      rw [hnil] at hmem
      cases hmem
    exact ⟨ho, hm, hr⟩

theorem merger_ids_accounted_witness :
    ((1 : ℕ) ∈ outputIds exNW exAims ∧ (1 : ℕ) ∉ missingIds exNW exAims
        ∧ (1 : ℕ) ∉ reportIds exNW exAims)
    ∨ ((1 : ℕ) ∉ outputIds exNW exAims ∧ (1 : ℕ) ∈ missingIds exNW exAims
        ∧ (1 : ℕ) ∈ reportIds exNW exAims) :=
  merger_ids_accounted exNW exAims 1 (by decide)

theorem iterate_stepAdj_supset (adj : ℕ → Finset ℕ) (n : ℕ) :
    ∀ s : Finset ℕ, s ⊆ (stepAdj adj)^[n] s := by
  induction n with
  | zero => intro s; simp
  | succ n ih =>
      intro s
      rw [Function.iterate_succ_apply]
      exact Finset.subset_union_left.trans (ih (stepAdj adj s))

theorem reach_self (g : OGraph) (k : ℕ) : k ∈ reach g k :=
  iterate_stepAdj_supset g.adj g.keys.length {k} (Finset.mem_singleton_self k)

theorem mem_foldr_union {α : Type} (f : α → Finset ℕ) (l : List α) (x : ℕ) :
    x ∈ l.foldr (fun c acc => f c ∪ acc) ∅ ↔ ∃ c ∈ l, x ∈ f c := by
  induction l with
  | nil => simp
  | cons h t ih =>
      simp only [List.foldr_cons, Finset.mem_union, ih, List.mem_cons]
      constructor
      · rintro (hx | ⟨c, hc, hxc⟩)
        · exact ⟨h, Or.inl rfl, hx⟩
        · exact ⟨c, Or.inr hc, hxc⟩
      · rintro ⟨c, rfl | hc, hxc⟩
        · exact Or.inl hxc
        · exact Or.inr ⟨c, hc, hxc⟩

theorem componentsAux_mem (g : OGraph) (ks : List ℕ) :
    ∀ visited : Finset ℕ, ∀ c ∈ componentsAux g ks visited,
      c.1 ∈ c.2 ∧ ∀ x ∈ c.2, x ∉ visited := by
  induction ks with
  | nil =>
      intro visited c hc
      simp [componentsAux] at hc
  | cons k rest ih =>
      intro visited c hc
      simp only [componentsAux] at hc
      split_ifs at hc with hv
      · exact ih visited c hc
      · rcases List.mem_cons.mp hc with rfl | hc2
        · refine ⟨Finset.mem_sdiff.mpr ⟨reach_self g k, hv⟩, ?_⟩
          intro x hx
          exact (Finset.mem_sdiff.mp hx).2
        · have h2 := ih (visited ∪ (reach g k \ visited)) c hc2
          exact ⟨h2.1, fun x hx hxv => h2.2 x hx (Finset.mem_union_left _ hxv)⟩

theorem componentsAux_disjoint (g : OGraph) (ks : List ℕ) :
    ∀ visited : Finset ℕ,
      (componentsAux g ks visited).Pairwise (fun c c2 => Disjoint c.2 c2.2) := by
  induction ks with
  | nil => intro visited; simp [componentsAux]
  | cons k rest ih =>
      intro visited
      simp only [componentsAux]
      split_ifs with hv
      · exact ih visited
      · refine List.Pairwise.cons ?_ (ih _)
        intro c2 hc2
        have hmem := componentsAux_mem g rest (visited ∪ (reach g k \ visited)) c2 hc2
        rw [Finset.disjoint_left]
        intro x hx hx2
        exact hmem.2 x hx2 (Finset.mem_union_right _ hx)

theorem componentsAux_heads (g : OGraph) (ks : List ℕ) :
    ∀ visited : Finset ℕ, ∀ c ∈ componentsAux g ks visited, c.1 ∈ ks := by
  induction ks with
  | nil =>
      intro v c hc
      simp [componentsAux] at hc
  | cons k rest ih =>
      intro v c hc
      simp only [componentsAux] at hc
      split_ifs at hc with hv
      · exact List.mem_cons_of_mem k (ih v c hc)
      · rcases List.mem_cons.mp hc with rfl | hc2
        · exact List.mem_cons_self k rest
        · exact List.mem_cons_of_mem k (ih _ c hc2)

theorem componentsAux_find (g : OGraph) (ks : List ℕ) :
    ∀ (visited : Finset ℕ) (c : ℕ × Finset ℕ), c ∈ componentsAux g ks visited →
      (componentsAux g ks visited).find? (fun c2 => decide (c2.1 = c.1)) = some c := by
  induction ks with
  | nil =>
      intro v c hc
      simp [componentsAux] at hc
  | cons k rest ih =>
      intro v c hc
      simp only [componentsAux] at hc ⊢
      split_ifs at hc ⊢ with hv
      · exact ih v c hc
      · rcases List.mem_cons.mp hc with rfl | hc2
        · rw [List.find?_cons_of_pos _ (by simp)]
        · have hmem := componentsAux_mem g rest (v ∪ (reach g k \ v)) c hc2
          have hne : c.1 ≠ k := by
            intro heq
            apply hmem.2 c.1 hmem.1
            rw [heq]
            exact Finset.mem_union_right _
              (Finset.mem_sdiff.mpr ⟨reach_self g k, hv⟩)
          rw [List.find?_cons_of_neg _ (by simp [Ne.symm hne])]
          exact ih _ c hc2

theorem addPairs_foldl_keys (touched : List ℕ) :
    ∀ (l : List ℕ) (g : OGraph) (x : ℕ),
      x ∈ (l.foldl (fun g2 i =>
        let g3 := insertKey g2 i
        { g3 with adj := fun j =>
            if j = i then g3.adj i ∪ touched.toFinset.erase i else g3.adj j }) g).keys
      → x ∈ g.keys ∨ x ∈ l := by
  intro l
  induction l with
  | nil => intro g x h; exact Or.inl h
  | cons i rest ih =>
      intro g x h
      rw [List.foldl_cons] at h
      rcases ih _ x h with hk | hr
      · have hk2 : x ∈ (insertKey g i).keys := hk
        unfold insertKey at hk2
        split_ifs at hk2 with hik
        · exact Or.inl hk2
        · rcases List.mem_append.mp hk2 with h1 | h1
          · exact Or.inl h1
          · right
            rw [List.mem_singleton.mp h1]
            exact List.mem_cons_self i rest
      · exact Or.inr (List.mem_cons_of_mem i hr)

theorem addPairs_keys (g : OGraph) (touched : List ℕ) (x : ℕ)
    (hx : x ∈ (addPairs g touched).keys) : x ∈ g.keys ∨ x ∈ touched := by
  unfold addPairs at hx
  split_ifs at hx with h
  · exact Or.inl hx
  · exact addPairs_foldl_keys touched touched g x hx

theorem buildGraph_keys (nw : List NWFeat) (aims : List Poly) :
    ∀ x ∈ (buildGraph nw aims).keys, x < nRock nw := by
  unfold buildGraph
  suffices h : ∀ (l : List Poly) (g : OGraph), (∀ x ∈ g.keys, x < nRock nw) →
      ∀ x ∈ (l.foldl (fun g a => addPairs g (touchedNW nw a)) g).keys, x < nRock nw by
    intro x hx
    refine h aims emptyGraph ?_ x hx
    intro y hy
    simp [emptyGraph] at hy
  intro l
  induction l with
  | nil => intro g hg x hx; exact hg x hx
  | cons a rest ih =>
      intro g hg x hx
      rw [List.foldl_cons] at hx
      refine ih _ ?_ x hx
      intro y hy
      rcases addPairs_keys g (touchedNW nw a) y hy with h1 | h1
      · exact hg y h1
      · unfold touchedNW at h1
        exact List.mem_range.mp (List.mem_filter.mp h1).1

theorem posAux_getD (l : List ℕ) (hnd : l.Nodup) (p : ℕ) (hp : p < l.length)
    (d : ℕ) : posAux l (l.getD p d) = some p := by
  induction l generalizing p with
  | nil => cases hp
  | cons x xs ih =>
      have hnd2 := List.nodup_cons.mp hnd
      cases p with
      | zero => simp [posAux]
      | succ p2 =>
          have hp2 : p2 < xs.length := Nat.lt_of_succ_lt_succ hp
          have hmem : xs.getD p2 d ∈ xs := by
            rw [List.getD_eq_getElem xs d hp2]
            exact List.getElem_mem hp2
          have hne : ¬ x = xs.getD p2 d := by
            intro heq
            rw [← heq] at hmem
            exact hnd2.1 hmem
          simp only [posAux, List.getD_cons_succ]
          rw [if_neg hne]
          rw [ih hnd2.2 p2 hp2]
          rfl

theorem rockIdxs_nodup (nw : List NWFeat) : (rockIdxs nw).Nodup :=
  List.Nodup.filter _ (List.nodup_range _)

theorem posInRock_idxMap (nw : List NWFeat) (p : ℕ) (hp : p < nRock nw) :
    posInRock nw (idxMap nw p) = some p := by
  unfold posInRock idxMap
  exact posAux_getD (rockIdxs nw) (rockIdxs_nodup nw) p hp nw.length

/-- C2 (amended): for every connected component found by stage 04, the
surviving dissolved feature keeps the identifier and attributes of the
component's first-discovered member — the first rock position inserted into
the connectivity graph while scanning the AIMS polygons in input order,
which need not be the first by the original input ordering — and every
other member of the component is removed from the output rows. -/
theorem merge_survivor_first_discovered (nw : List NWFeat) (aims : List Poly)
    (c : ℕ × Finset ℕ) (hc : c ∈ components (buildGraph nw aims)) :
    stage04Row nw aims (idxMap nw c.1)
      = some { rockAt nw c.1 with geom := dissolvedGeom nw aims c }
    ∧ (∀ p ∈ c.2, p ≠ c.1 → ∀ i, posInRock nw i = some p →
        stage04Row nw aims i = none) := by
  have hmem := componentsAux_mem (buildGraph nw aims) (buildGraph nw aims).keys ∅ c hc
  have hlt : c.1 < nRock nw :=
    buildGraph_keys nw aims c.1
      (componentsAux_heads (buildGraph nw aims) (buildGraph nw aims).keys ∅ c hc)
  constructor
  · have hnr : c.1 ∉ removedRockPos nw aims := by
      intro hr
      unfold removedRockPos at hr
      rw [mem_foldr_union] at hr
      obtain ⟨c2, hc2, hx⟩ := hr
      by_cases hcc : c2 = c
      · subst hcc
        exact (Finset.mem_erase.mp hx).1 rfl
      · have hdis := (componentsAux_disjoint (buildGraph nw aims)
            (buildGraph nw aims).keys ∅).forall (fun a b h => h.symm) hc2 hc hcc
        exact (Finset.disjoint_left.mp hdis) (Finset.mem_of_mem_erase hx) hmem.1
    have hcm : c.1 ∈ compMembers nw aims := by
      unfold compMembers
      rw [mem_foldr_union]
      exact ⟨c, hc, hmem.1⟩
    have hiso : c.1 ∉ isolatedPos nw aims := by
      unfold isolatedPos
      rw [Finset.mem_sdiff]
      push_neg
      intro
      exact hcm
    have hfind : (components (buildGraph nw aims)).find?
        (fun c2 => decide (c2.1 = c.1)) = some c :=
      componentsAux_find (buildGraph nw aims) (buildGraph nw aims).keys ∅ c hc
    unfold stage04Row
    simp only [posInRock_idxMap nw c.1 hlt]
    rw [if_neg hnr]
    unfold stage04Geom
    rw [if_neg hiso]
    simp only [hfind]
    rfl
  · intro p hp hpne i hpos
    have hrm : p ∈ removedRockPos nw aims := by
      unfold removedRockPos
      rw [mem_foldr_union]
      exact ⟨c, hc, Finset.mem_erase.mpr ⟨hpne, hp⟩⟩
    unfold stage04Row
    simp only [hpos]
    rw [if_pos hrm]

theorem merge_survivor_first_discovered_witness :
    stage04Row exNW exAims (idxMap exNW 3)
      = some { rockAt exNW 3 with
          geom := dissolvedGeom exNW exAims (3, ({1, 3, 4} : Finset ℕ)) } :=
  (merge_survivor_first_discovered exNW exAims (3, {1, 3, 4}) (by decide)).1

end NWAus

